import Mathlib

/-
  Verification of the MyFootballCareerSim localization core.

  Shallow embedding of the patch-resolution pipeline:
  - the deep-merge engine (src deepMerge.ts),
  - the interpolation engine with its cache (src interpolate.ts),
  - the sanitizer (src sanitize.ts),
  - the patch validator (src schema.ts),
  - the translation loader (src loader.ts).

  JavaScript runtime values are modelled by the inductive `JVal`; JS objects
  are insertion-ordered association lists, matching JS object key order.
  Numbers are modelled as integers: the repository only compares counts with
  1 and stringifies numbers, so the integer fragment is faithful for every
  property considered here.
-/

namespace MFCS

/-- A JavaScript value as it occurs in translation trees, patch documents and
interpolation contexts: undefined, null, booleans, numbers (integer fragment),
strings, arrays and plain objects (insertion-ordered association lists). -/
inductive JVal where
  | vUndefined : JVal
  | vNull : JVal
  | vBool (b : Bool) : JVal
  | vNum (n : Int) : JVal
  | vStr (s : String) : JVal
  | vArr (elems : List JVal) : JVal
  | vObj (fields : List (String × JVal)) : JVal

/-- First-occurrence lookup in an object's field list (JS property read). -/
def lookupKey : List (String × JVal) → String → Option JVal
  | [], _ => none
  | (k, v) :: rest, key => if k = key then some v else lookupKey rest key

/-- JS property write `o[key] = v`: replace the value in place if the key is
present (keeping its position), else append the new key at the end. -/
def setKey : List (String × JVal) → String → JVal → List (String × JVal)
  | [], key, v => [(key, v)]
  | (k, w) :: rest, key, v =>
      if k = key then (k, v) :: rest else (k, w) :: setKey rest key v

/-- Does a key occur in a field list? -/
def keyMem : List (String × JVal) → String → Bool
  | [], _ => false
  | (k, _) :: rest, key => k = key || keyMem rest key

/-- All keys of a field list are pairwise distinct (true of every real JS
object). -/
def nodupKeys : List (String × JVal) → Bool
  | [] => true
  | (k, _) :: rest => !keyMem rest k && nodupKeys rest

/-- `isPlainObject` from deepMerge.ts: true exactly for plain objects
(arrays, null, primitives excluded). -/
def isPlainObject : JVal → Bool
  | .vObj _ => true
  | _ => false

/-- JS truthiness of a value. -/
def jsTruthy : JVal → Bool
  | .vUndefined => false
  | .vNull => false
  | .vBool b => b
  | .vNum n => n ≠ 0
  | .vStr s => s ≠ ""
  | .vArr _ => true
  | .vObj _ => true

/-- `typeof v` as a string. -/
def jsTypeof : JVal → String
  | .vUndefined => "undefined"
  | .vNull => "object"
  | .vBool _ => "boolean"
  | .vNum _ => "number"
  | .vStr _ => "string"
  | .vArr _ => "object"
  | .vObj _ => "object"

/-- `v` is truthy and `typeof v` is object (the recurring JS guard
`v && typeof v === "object"`). -/
def objTruthy : JVal → Bool
  | .vObj _ => true
  | .vArr _ => true
  | _ => false

/-- `deepMerge` from deepMerge.ts, specialised to one source object already
known to be a plain object: for each source key in order, an `undefined`
source value is skipped; if both the current and the incoming value are plain
objects they are merged recursively; otherwise the incoming value replaces
the current one outright. -/
def deepMerge1 : (result : List (String × JVal)) → (source : List (String × JVal)) →
    List (String × JVal)
  | result, [] => result
  | result, (key, sv) :: rest =>
    match sv with
    | .vUndefined => deepMerge1 result rest
    | .vObj sf =>
      (match lookupKey result key with
       | some (.vObj tf) => deepMerge1 (setKey result key (.vObj (deepMerge1 tf sf))) rest
       | _ => deepMerge1 (setKey result key (.vObj sf)) rest)
    | _ => deepMerge1 (setKey result key sv) rest
termination_by _ source => sizeOf source
decreasing_by
all_goals simp_wf
all_goals omega

/-- One step of the multi-source loop of `deepMerge`: a source that is not a
plain object is skipped. -/
def mergeStep (result : List (String × JVal)) (source : JVal) :
    List (String × JVal) :=
  match source with
  | .vObj fields => deepMerge1 result fields
  | _ => result

/-- `deepMerge(target, ...sources)` from deepMerge.ts: fold the sources in
order into a copy of the target. -/
def deepMerge (target : List (String × JVal)) (sources : List JVal) :
    List (String × JVal) :=
  sources.foldl mergeStep target

/-- JS array/object property read used by `getNestedValue`: objects by key,
arrays by canonical numeric index or `length`; anything else is undefined. -/
def getProp : JVal → String → JVal
  | .vObj fields, key => (lookupKey fields key).getD .vUndefined
  | .vArr elems, key =>
      if key = "length" then .vNum elems.length
      else
        match key.toNat? with
        | some i => if toString i = key then (elems.get? i).getD .vUndefined else .vUndefined
        | none => .vUndefined
  | _, _ => .vUndefined

/-- Accumulating pass of `path.split(".")`. -/
def splitOnDotGo : List Char → List Char → List String
  | acc, [] => [String.mk acc.reverse]
  | acc, c :: rest =>
    if c = '.' then String.mk acc.reverse :: splitOnDotGo [] rest
    else splitOnDotGo (c :: acc) rest

/-- JS `path.split(".")`: always at least one segment; empty segments are
kept (so `""` splits to `[""]` and `"a..b"` to `["a", "", "b"]`). -/
def splitOnDot (s : String) : List String :=
  splitOnDotGo [] s.data

/-- The walk of `getNestedValue`: for each path segment, a null or undefined
current value yields undefined, a non-object current value yields undefined,
otherwise the segment is read as a property. -/
def getNestedGo : JVal → List String → JVal
  | current, [] => current
  | current, key :: rest =>
    match current with
    | .vObj _ => getNestedGo (getProp current key) rest
    | .vArr _ => getNestedGo (getProp current key) rest
    | _ => .vUndefined

/-- `getNestedValue(obj, path)` from deepMerge.ts: split the path on dots and
walk the tree. -/
def getNestedValue (obj : List (String × JVal)) (path : String) : JVal :=
  getNestedGo (.vObj obj) (splitOnDot path)

mutual

/-- Well-formed JS value: every object reachable in it has pairwise distinct
keys. True of every value produced by a real JS runtime. -/
def wfVal : JVal → Bool
  | .vObj fields => nodupKeys fields && wfFieldList fields
  | .vArr elems => wfElemList elems
  | _ => true

/-- Well-formedness of all values of a field list. -/
def wfFieldList : List (String × JVal) → Bool
  | [] => true
  | (_, v) :: rest => wfVal v && wfFieldList rest

/-- Well-formedness of all elements of an array. -/
def wfElemList : List JVal → Bool
  | [] => true
  | v :: rest => wfVal v && wfElemList rest

end

/-! ## Interpolation engine (interpolate.ts) -/
/-- JS regex class `\w` (ASCII word character). -/
def isWordChar (c : Char) : Bool := c.isAlphanum || c = '_'

/-- The character class `[a-zA-Z0-9_.]` of the reference-placeholder path. -/
def isRefChar (c : Char) : Bool := c.isAlphanum || c = '_' || c = '.'

/-- JS regex class `\s` (whitespace, including the Unicode space separators
and the BOM). -/
def isJsSpace (c : Char) : Bool :=
  c = ' ' || c = '\t' || c = '\n' || c = '\r' || c.toNat = 11 || c.toNat = 12 ||
  c.toNat = 160 || c.toNat = 5760 || (8192 ≤ c.toNat && c.toNat ≤ 8202) ||
  c.toNat = 8232 || c.toNat = 8233 || c.toNat = 8239 || c.toNat = 8287 ||
  c.toNat = 12288 || c.toNat = 65279

/-- Greedy match of a character class: the maximal prefix satisfying `p`,
paired with the remainder (regex `[class]*` with no backtracking needed since
the class never overlaps the following literal in any pattern used here). -/
def munchWhile (p : Char → Bool) : List Char → List Char × List Char
  | [] => ([], [])
  | c :: rest =>
    if p c then
      let r := munchWhile p rest
      (c :: r.1, r.2)
    else ([], c :: rest)

/-- Case-sensitive literal: if `l` starts with the literal, return the rest. -/
def dropLit : List Char → List Char → Option (List Char)
  | [], l => some l
  | _ :: _, [] => none
  | p :: ps, c :: cs => if c = p then dropLit ps cs else none

/-- Case-insensitive literal (JS regex `i` flag, simple folding). -/
def dropLitCi : List Char → List Char → Option (List Char)
  | [], l => some l
  | _ :: _, [] => none
  | p :: ps, c :: cs => if c.toLower = p.toLower then dropLitCi ps cs else none

/-- JS `String.prototype.includes` over character lists. -/
def listContains (needle : List Char) : List Char → Bool
  | [] => (dropLit needle []).isSome
  | c :: rest => (dropLit needle (c :: rest)).isSome || listContains needle rest

mutual

/-- JS `String(v)` coercion: strings pass through, numbers print in decimal,
arrays join their elements with commas (null/undefined becoming empty),
plain objects print as `[object Object]`. -/
def jsToString : JVal → String
  | .vUndefined => "undefined"
  | .vNull => "null"
  | .vBool b => if b then "true" else "false"
  | .vNum n => toString n
  | .vStr s => s
  | .vArr xs => jsToStringList xs
  | .vObj _ => "[object Object]"

/-- `Array.prototype.toString`: comma-joined elements. -/
def jsToStringList : List JVal → String
  | [] => ""
  | [x] =>
    (match x with
     | .vNull => ""
     | .vUndefined => ""
     | v => jsToString v)
  | x :: rest =>
    (match x with
     | .vNull => ""
     | .vUndefined => ""
     | v => jsToString v) ++ "," ++ jsToStringList rest

end

/-- One global-regex `replace` pass: at each position try the matcher; on a
match emit its replacement and continue after the matched text (replacements
are not rescanned); otherwise keep the character. The fuel starts at the
input length; every successful match consumes at least the leading character,
so the fuel never runs out. -/
def replaceScanF (m : List Char → Option (List Char × List Char)) :
    Nat → List Char → List Char
  | _, [] => []
  | 0, l => l
  | fuel + 1, c :: rest =>
    match m (c :: rest) with
    | some (repl, remaining) => repl ++ replaceScanF m fuel remaining
    | none => c :: replaceScanF m fuel rest

/-- `template.replace(pattern, cb)` for a global pattern. -/
def replaceScan (m : List Char → Option (List Char × List Char))
    (l : List Char) : List Char :=
  replaceScanF m l.length l

/-- The literal `{{ref:` that opens a reference placeholder. -/
def refOpen : List Char := ['\x7b', '\x7b', 'r', 'e', 'f', ':']

/-- The literal `}}`. -/
def brace2 : List Char := ['\x7d', '\x7d']

/-- The literal `{{plural:` that opens a plural placeholder. -/
def pluralOpen : List Char :=
  ['\x7b', '\x7b', 'p', 'l', 'u', 'r', 'a', 'l', ':']

/-- One match of `REF_PATTERN` = `{{ref:([a-zA-Z0-9_.]+)}}`: the captured
path is looked up in the merged tree; a missing or non-string target yields
the visible fallback `[path]` (the code also logs a warning), a string target
is substituted. -/
def matchRef (translations : List (String × JVal)) (l : List Char) :
    Option (List Char × List Char) :=
  match dropLit refOpen l with
  | none => none
  | some l1 =>
    let mw := munchWhile isRefChar l1
    if mw.1.isEmpty then none
    else
      match dropLit brace2 mw.2 with
      | none => none
      | some remaining =>
        (match getNestedValue translations (String.mk mw.1) with
         | .vStr s => some (s.data, remaining)
         | _ => some (('[' :: mw.1) ++ [']'], remaining))

/-- `resolveReferences` from interpolate.ts (the `includes` guard included). -/
def resolveReferences (template : String)
    (translations : List (String × JVal)) : String :=
  if listContains refOpen template.data then
    String.mk (replaceScan (matchRef translations) template.data)
  else template

/-- One match of `PLURAL_PATTERN` = `{{plural:(\w+)|([^|]+)|([^}]+)}}`:
a non-numeric count defaults to the singular text; a numeric count picks the
singular exactly when it equals 1. -/
def matchPlural (context : List (String × JVal)) (l : List Char) :
    Option (List Char × List Char) :=
  match dropLit pluralOpen l with
  | none => none
  | some l1 =>
    let mk1 := munchWhile isWordChar l1
    if mk1.1.isEmpty then none
    else
      match mk1.2 with
      | '|' :: l3 =>
        let ms := munchWhile (fun c => !(c = '|')) l3
        if ms.1.isEmpty then none
        else
          match ms.2 with
          | '|' :: l5 =>
            let mp := munchWhile (fun c => !(c = '\x7d')) l5
            if mp.1.isEmpty then none
            else
              match mp.2 with
              | '\x7d' :: '\x7d' :: remaining =>
                (match lookupKey context (String.mk mk1.1) with
                 | some (.vNum n) =>
                     some ((if n = 1 then ms.1 else mp.1), remaining)
                 | _ => some (ms.1, remaining))
              | _ => none
          | _ => none
      | _ => none

/-- `resolvePlurals` from interpolate.ts. -/
def resolvePlurals (template : String) (context : List (String × JVal)) :
    String :=
  if listContains pluralOpen template.data then
    String.mk (replaceScan (matchPlural context) template.data)
  else template

/-- One match of `VAR_PATTERN` = `{(\w+)}`: an absent (or null/undefined)
context value keeps the literal placeholder text; any other value is
stringified and substituted. -/
def matchVar (context : List (String × JVal)) (l : List Char) :
    Option (List Char × List Char) :=
  match l with
  | '\x7b' :: l1 =>
    let mn := munchWhile isWordChar l1
    if mn.1.isEmpty then none
    else
      match mn.2 with
      | '\x7d' :: remaining =>
        (match lookupKey context (String.mk mn.1) with
         | none => some (('\x7b' :: mn.1) ++ ['\x7d'], remaining)
         | some .vUndefined => some (('\x7b' :: mn.1) ++ ['\x7d'], remaining)
         | some .vNull => some (('\x7b' :: mn.1) ++ ['\x7d'], remaining)
         | some v => some ((jsToString v).data, remaining))
      | _ => none
  | _ => none

/-- `resolveVariables` from interpolate.ts. -/
def resolveVariables (template : String) (context : List (String × JVal)) :
    String :=
  if listContains ['\x7b'] template.data then
    String.mk (replaceScan (matchVar context) template.data)
  else template

/-! ### The interpolation cache (class InterpolationCache) -/
/-- The cache of resolved strings, in JS `Map` insertion order
(front = oldest). -/
abbrev ICache := List (String × String)

/-- `Map.get`-style first-occurrence lookup. -/
def lookupS : ICache → String → Option String
  | [], _ => none
  | (k, v) :: rest, key => if k = key then some v else lookupS rest key

/-- `Map.delete`: remove the (unique) entry of a key. -/
def eraseKeyS : ICache → String → ICache
  | [], _ => []
  | (k, v) :: rest, key => if k = key then rest else (k, v) :: eraseKeyS rest key

/-- `Map.set`: overwrite in place if present, else append at the end. -/
def mapSetS : ICache → String → String → ICache
  | [], key, v => [(key, v)]
  | (k, w) :: rest, key, v =>
      if k = key then (k, v) :: rest else (k, w) :: mapSetS rest key v

/-- Key membership in the cache. -/
def keyMemS : ICache → String → Bool
  | [], _ => false
  | (k, _) :: rest, key => k = key || keyMemS rest key

/-- Pairwise-distinct cache keys (an invariant of every JS `Map`). -/
def nodupS : ICache → Bool
  | [] => true
  | (k, _) :: rest => !keyMemS rest k && nodupS rest

/-- Stable insertion into a key-sorted entry list. -/
def sortInsert (p : String × JVal) :
    List (String × JVal) → List (String × JVal)
  | [] => [p]
  | q :: rest => if p.1 < q.1 then p :: q :: rest else q :: sortInsert p rest

/-- Sort the context entries by key (the code sorts with `localeCompare`;
the embedding uses the lexicographic string order). -/
def sortEntries : List (String × JVal) → List (String × JVal)
  | [] => []
  | p :: rest => sortInsert p (sortEntries rest)

/-- `InterpolationCache.generateKey`: the template text plus the canonical
serialization of the context — sorted keys, stringified values. The merged
translations tree is deliberately not part of the key. -/
def generateKey (template : String) (context : List (String × JVal)) :
    String :=
  template ++ "::" ++
    String.intercalate "|"
      ((sortEntries context).map (fun p => p.1 ++ ":" ++ jsToString p.2))

/-- `InterpolationCache.get` with the LRU touch: a hit re-inserts the entry
at the most-recent end. -/
def cacheGetRaw (cache : ICache) (key : String) : Option String × ICache :=
  match lookupS cache key with
  | none => (none, cache)
  | some v => (some v, eraseKeyS cache key ++ [(key, v)])

/-- The global cache capacity (`new InterpolationCache(2000)`). -/
def interpolationMaxSize : Nat := 2000

/-- `InterpolationCache.set`: at capacity the oldest entry is deleted first
(the code skips the delete when the first key is the empty string, which is
falsy in JS); then the entry is written. -/
def cacheSetRaw (cache : ICache) (key v : String) : ICache :=
  let c1 :=
    if interpolationMaxSize ≤ cache.length then
      match cache with
      | [] => cache
      | (fk, _) :: _ => if fk = "" then cache else eraseKeyS cache fk
    else cache
  mapSetS c1 key v

/-- `interpolate` from interpolate.ts, with the global cache threaded
explicitly: an empty template passes through; with caching on, a hit returns
the cached string (after the LRU touch); otherwise the three resolution
stages run in the fixed order references → plurals → variables and, with
caching on, the result is stored. -/
def interpolate (template : String) (context : List (String × JVal))
    (translations : List (String × JVal)) (useCache : Bool) (cache : ICache) :
    String × ICache :=
  if template = "" then ("", cache)
  else
    let got :=
      if useCache then cacheGetRaw cache (generateKey template context)
      else (none, cache)
    match got.1 with
    | some v => (v, got.2)
    | none =>
      let r1 := resolveReferences template translations
      let r2 := resolvePlurals r1 context
      let r3 := resolveVariables r2 context
      if useCache then (r3, cacheSetRaw got.2 (generateKey template context) r3)
      else (r3, got.2)

/-! ## Sanitizer (sanitize.ts) -/
/-- `HTML_ESCAPE_MAP`: the entity for one escapable character. -/
def escapeHtmlChar (c : Char) : List Char :=
  if c = '&' then ['&', 'a', 'm', 'p', ';']
  else if c = '<' then ['&', 'l', 't', ';']
  else if c = '>' then ['&', 'g', 't', ';']
  else if c = '"' then ['&', 'q', 'u', 'o', 't', ';']
  else if c = '\x27' then ['&', '#', 'x', '2', '7', ';']
  else if c = '/' then ['&', '#', 'x', '2', 'F', ';']
  else if c = '\x60' then ['&', '#', 'x', '6', '0', ';']
  else if c = '=' then ['&', '#', 'x', '3', 'D', ';']
  else [c]

/-- `escapeHtml` from sanitize.ts. -/
def escapeHtml (s : String) : String :=
  String.mk (s.data.map escapeHtmlChar).flatten

/-- Scan `[^>]*>` after a `<`: everything up to and including the first `>`. -/
def tagTail : List Char → Option (List Char)
  | [] => none
  | '>' :: remaining => some remaining
  | _ :: rest => tagTail rest

/-- One match of `/<[^>]*>/`. -/
def matchTag : List Char → Option (List Char × List Char)
  | '<' :: rest =>
    (match tagTail rest with
     | some remaining => some ([], remaining)
     | none => none)
  | _ => none

/-- `stripHtmlTags` from sanitize.ts. -/
def stripHtmlTags (s : String) : String :=
  String.mk (replaceScan matchTag s.data)

/-- After `<script\b`, the script-tag regex consumes up to and including the
first case-insensitive `</script>` (its body loop admits every `<` that does
not open `</script>`). -/
def scriptTail : List Char → Option (List Char)
  | [] => none
  | c :: rest =>
    if c = '<' then
      match dropLitCi ("/script>".data) rest with
      | some remaining => some remaining
      | none => scriptTail rest
    else scriptTail rest

/-- One match of the script-tag pattern
`/<script\b[^<]*(?:(?!<\/script>)<[^<]*)*<\/script>/gi`. -/
def matchScript (l : List Char) : Option (List Char × List Char) :=
  match dropLitCi ("<script".data) l with
  | none => none
  | some l1 =>
    match l1 with
    | c :: _ =>
      if isWordChar c then none
      else
        (match scriptTail l1 with
         | some remaining => some ([], remaining)
         | none => none)
    | [] => none

/-- One match of a case-insensitive literal pattern. -/
def matchCiLit (pat : List Char) (l : List Char) :
    Option (List Char × List Char) :=
  match dropLitCi pat l with
  | some remaining => some ([], remaining)
  | none => none

/-- One match of `/on\w+\s*=/gi` (inline event handlers). -/
def matchOnAttr (l : List Char) : Option (List Char × List Char) :=
  match dropLitCi ("on".data) l with
  | none => none
  | some l1 =>
    let mw := munchWhile isWordChar l1
    if mw.1.isEmpty then none
    else
      let ms := munchWhile isJsSpace mw.2
      match ms.2 with
      | '=' :: remaining => some ([], remaining)
      | _ => none

/-- One match of `/data:\s*text\/html/gi`. -/
def matchDataHtml (l : List Char) : Option (List Char × List Char) :=
  match dropLitCi ("data:".data) l with
  | none => none
  | some l1 =>
    let ms := munchWhile isJsSpace l1
    match dropLitCi ("text/html".data) ms.2 with
    | some remaining => some ([], remaining)
    | none => none

/-- One match of `/expression\s*\(/gi` (CSS expression). -/
def matchExpression (l : List Char) : Option (List Char × List Char) :=
  match dropLitCi ("expression".data) l with
  | none => none
  | some l1 =>
    let ms := munchWhile isJsSpace l1
    match ms.2 with
    | '(' :: remaining => some ([], remaining)
    | _ => none

/-- One match of `/url\s*\(\s*['"]?\s*javascript:/gi`. -/
def matchUrlJs (l : List Char) : Option (List Char × List Char) :=
  match dropLitCi ("url".data) l with
  | none => none
  | some l1 =>
    let m1 := munchWhile isJsSpace l1
    match m1.2 with
    | '(' :: l3 =>
      let m2 := munchWhile isJsSpace l3
      let l5 :=
        match m2.2 with
        | '\x27' :: r => r
        | '"' :: r => r
        | other => other
      let m3 := munchWhile isJsSpace l5
      (match dropLitCi ("javascript:".data) m3.2 with
       | some remaining => some ([], remaining)
       | none => none)
    | _ => none

/-- Lazy scan for the earliest `-->` of the HTML-comment pattern. -/
def commentTail : List Char → Option (List Char)
  | [] => none
  | '-' :: '-' :: '>' :: remaining => some remaining
  | _ :: rest => commentTail rest

/-- One match of `/<!--[\s\S]*?-->/g`. -/
def matchComment (l : List Char) : Option (List Char × List Char) :=
  match dropLit ("<!--".data) l with
  | none => none
  | some l1 =>
    (match commentTail l1 with
     | some remaining => some ([], remaining)
     | none => none)

/-- `removeDangerousPatterns` from sanitize.ts: each pattern of
`DANGEROUS_PATTERNS` is applied as one global replace-with-empty pass over
the whole string, in the array's order. -/
def removeDangerousPatterns (s : String) : String :=
  let l1 := replaceScan matchScript s.data
  let l2 := replaceScan (matchCiLit ("javascript:".data)) l1
  let l3 := replaceScan (matchCiLit ("vbscript:".data)) l2
  let l4 := replaceScan matchOnAttr l3
  let l5 := replaceScan matchDataHtml l4
  let l6 := replaceScan matchExpression l5
  let l7 := replaceScan (matchCiLit ("<iframe".data)) l6
  let l8 := replaceScan (matchCiLit ("<object".data)) l7
  let l9 := replaceScan (matchCiLit ("<embed".data)) l8
  let l10 := replaceScan (matchCiLit ("<link".data)) l9
  let l11 := replaceScan (matchCiLit ("<meta".data)) l10
  let l12 := replaceScan (matchCiLit ("<style".data)) l11
  let l13 := replaceScan matchUrlJs l12
  let l14 := replaceScan matchComment l13
  String.mk l14

/-- The class `[\x00-\x08\x0B\x0C\x0E-\x1F\x7F]` of stripped control
characters (newline and tab survive). -/
def isRemovedCtl (c : Char) : Bool :=
  let n := c.toNat
  n ≤ 8 || n = 11 || n = 12 || (14 ≤ n && n ≤ 31) || n = 127

/-- The control-character removal step of `sanitizeString`. -/
def removeControlCharsStr (s : String) : String :=
  String.mk (s.data.filter (fun c => !isRemovedCtl c))

/-- The whitespace set of JS `String.prototype.trim`. -/
def isTrimWs (c : Char) : Bool :=
  let n := c.toNat
  (9 ≤ n && n ≤ 13) || n = 32 || n = 160 || n = 5760 ||
  (8192 ≤ n && n ≤ 8202) || n = 8232 || n = 8233 || n = 8239 || n = 8287 ||
  n = 12288 || n = 65279

/-- JS `value.trim()`. -/
def jsTrim (s : String) : String :=
  String.mk (((s.data.dropWhile isTrimWs).reverse.dropWhile isTrimWs).reverse)

/-- JS `value.length`: UTF-16 code units. -/
def jsLength (s : String) : Nat :=
  s.data.foldl (fun n c => n + (if 65536 ≤ c.toNat then 2 else 1)) 0

/-- JS `value.substring(0, max)` by UTF-16 units (an astral character split
at the boundary is dropped rather than kept as a lone surrogate, the only
point where the embedding departs from JS strings). -/
def utf16Take : Nat → List Char → List Char
  | _, [] => []
  | max, c :: rest =>
    let w := if 65536 ≤ c.toNat then 2 else 1
    if w ≤ max then c :: utf16Take (max - w) rest else []

/-- The options object of `sanitizeString`; an absent field takes the
code's default. -/
structure SanitizeOptions where
  stripHtml : Option Bool := none
  escapeHtml : Option Bool := none
  maxLength : Option Nat := none
  removeControlChars : Option Bool := none

/-- `sanitizeString` from sanitize.ts: remove the dangerous patterns, then
strip (default) or escape HTML, then drop control characters, then trim,
then truncate to the maximum length (default 2000). -/
def sanitizeString (value : String) (options : SanitizeOptions) : String :=
  let shouldStripHtml := options.stripHtml.getD true
  let shouldEscapeHtml := options.escapeHtml.getD false
  let maxLength := options.maxLength.getD 2000
  let removeCtl := options.removeControlChars.getD true
  let r1 := removeDangerousPatterns value
  let r2 :=
    if shouldStripHtml then stripHtmlTags r1
    else if shouldEscapeHtml then escapeHtml r1
    else r1
  let r3 := if removeCtl then removeControlCharsStr r2 else r2
  let r4 := jsTrim r3
  if maxLength < jsLength r4 then String.mk (utf16Take maxLength r4.data) else r4

mutual

/-- `sanitizeObject` from sanitize.ts: nesting deeper than 10 levels yields
null; strings are sanitized with the defaults; numbers, booleans, null and
undefined pass through; arrays sanitize element-wise; objects sanitize their
keys too (maximum 100 characters), drop keys that sanitize to empty, and
sanitize values recursively. -/
def sanitizeObject (v : JVal) (depth : Nat) : JVal :=
  if 10 < depth then .vNull
  else
    match v with
    | .vNull => .vNull
    | .vUndefined => .vUndefined
    | .vStr s => .vStr (sanitizeString s {})
    | .vNum n => .vNum n
    | .vBool b => .vBool b
    | .vArr xs => .vArr (sanitizeElems xs (depth + 1))
    | .vObj fields => .vObj (sanitizeFields fields (depth + 1) [])

/-- Element-wise pass of `sanitizeObject` over an array. -/
def sanitizeElems : List JVal → Nat → List JVal
  | [], _ => []
  | x :: rest, depth => sanitizeObject x depth :: sanitizeElems rest depth

/-- Field-wise pass of `sanitizeObject` over an object, accumulating the
result object built by property assignment. -/
def sanitizeFields : List (String × JVal) → Nat → List (String × JVal) →
    List (String × JVal)
  | [], _, acc => acc
  | (k, v) :: rest, depth, acc =>
    let sk := sanitizeString k { maxLength := some 100 }
    if sk = "" then sanitizeFields rest depth acc
    else sanitizeFields rest depth (setKey acc sk (sanitizeObject v depth))

end

/-- `sanitizePatch` from sanitize.ts: a non-object document (arrays and null
included) is rejected; so is one whose sanitized form has no keys left. -/
def sanitizePatch (patch : JVal) : Option (List (String × JVal)) :=
  match patch with
  | .vObj fields =>
    (match sanitizeObject (.vObj fields) 0 with
     | .vObj sf => if sf.isEmpty then none else some sf
     | _ => none)
  | _ => none

/-- The protected (core) namespace list of `isProtectedNamespace`. -/
def protectedNamespaces : List String :=
  ["system", "core", "attributes", "training", "setup", "positions",
   "common", "profile", "stats", "detailedStats", "careerStats"]

/-- `isProtectedNamespace` from sanitize.ts. -/
def isProtectedNamespace (ns : String) : Bool :=
  protectedNamespaces.contains ns

/-- `filterProtectedNamespaces` from sanitize.ts: drop the protected
top-level keys, keeping the rest in order. -/
def filterProtectedNamespaces (patch : List (String × JVal)) :
    List (String × JVal) :=
  patch.filter (fun p => !isProtectedNamespace p.1)

/-! ## Patch validator (schema.ts) -/
/-- One entry of the validator's `errors` array. -/
structure ValidationError where
  path : String
  message : String
  code : String
deriving DecidableEq

/-- The validator's result: `valid` holds exactly when `errors` is empty. -/
structure ValidationResult where
  valid : Bool
  errors : List ValidationError
  warnings : List String
deriving DecidableEq

/-- `PATCHABLE_NAMESPACES` from schema.ts, in array order. -/
def PATCHABLE_NAMESPACES : List String :=
  ["leagues", "cups", "competitionNames", "competition", "trophy", "trophies",
   "trophiesSection", "award", "awardsSection", "awardGroups", "countries",
   "nationality", "continents", "tier", "careerTiers"]

/-- `VERSION_REGEX` = `^\d+\.\d+\.\d+(-[\w.]+)?$` as a decision procedure
(every character class here is disjoint from the literal that follows it, so
the greedy reading is exact). -/
def versionOk (s : String) : Bool :=
  let m1 := munchWhile Char.isDigit s.data
  if m1.1.isEmpty then false
  else
    match m1.2 with
    | '.' :: r2 =>
      let m2 := munchWhile Char.isDigit r2
      if m2.1.isEmpty then false
      else
        match m2.2 with
        | '.' :: r4 =>
          let m3 := munchWhile Char.isDigit r4
          if m3.1.isEmpty then false
          else
            (match m3.2 with
             | [] => true
             | '-' :: r6 =>
                 !r6.isEmpty && r6.all (fun c => isWordChar c || c = '.')
             | _ => false)
        | _ => false
    | _ => false

/-- `validateMetadata` from schema.ts, returning the errors and warnings it
pushes (its boolean result is ignored by the caller). -/
def validateMetadata (metadata : JVal) : List ValidationError × List String :=
  if objTruthy metadata = false then
    ([⟨"metadata", "Metadata is required and must be an object",
        "MISSING_METADATA"⟩], [])
  else
    let versionErrs : List ValidationError :=
      match getProp metadata "version" with
      | .vStr s =>
        if versionOk s then []
        else [⟨"metadata.version",
          "Version must follow semver format (e.g., 1.0.0)",
          "INVALID_VERSION_FORMAT"⟩]
      | _ => [⟨"metadata.version", "Version is required and must be a string",
          "INVALID_VERSION"⟩]
    let nameErrs : List ValidationError :=
      match getProp metadata "name" with
      | .vStr s =>
        if s = "" then
          [⟨"metadata.name", "Name is required and must be a non-empty string",
            "INVALID_NAME"⟩]
        else if 100 < jsLength s then
          [⟨"metadata.name", "Name must be 100 characters or less",
            "NAME_TOO_LONG"⟩]
        else []
      | _ => [⟨"metadata.name", "Name is required and must be a non-empty string",
          "INVALID_NAME"⟩]
    let authorWarns : List String :=
      match getProp metadata "author" with
      | .vUndefined => []
      | .vStr _ => []
      | _ => ["Author should be a string"]
    let descWarns : List String :=
      match getProp metadata "description" with
      | .vUndefined => []
      | .vStr s =>
        if 500 < jsLength s then
          ["Description is very long, consider shortening"]
        else []
      | _ => ["Description should be a string"]
    (versionErrs ++ nameErrs, authorWarns ++ descWarns)

/-- The `STRING_TOO_LONG` error at a path. -/
def tooLongErr (p : String) : ValidationError :=
  ⟨p, "String value exceeds maximum length of 2000 characters",
    "STRING_TOO_LONG"⟩

/-- The `INVALID_VALUE_TYPE` error at a path, naming `typeof value`. -/
def invalidTypeErr (p : String) (v : JVal) : ValidationError :=
  ⟨p, "Invalid value type: " ++ jsTypeof v ++
      ". Only strings and objects are allowed", "INVALID_VALUE_TYPE"⟩

mutual

/-- One `[key, value]` step of `validateNamespaceContent`: empty strings only
warn, strings longer than 2000 units are `STRING_TOO_LONG`, objects — arrays
included, since `typeof` calls them objects — are recursed into via their
entries, null and undefined fall through silently, and every other type is
`INVALID_VALUE_TYPE`. -/
def vncEntry (key : String) (value : JVal) (basePath : String) :
    List ValidationError × List String :=
  let keyPath := basePath ++ "." ++ key
  match value with
  | .vStr s =>
    if s = "" then ([], ["Empty string at " ++ keyPath])
    else if 2000 < jsLength s then ([tooLongErr keyPath], [])
    else ([], [])
  | .vObj fields => vncFields fields keyPath
  | .vArr xs => vncArr xs 0 keyPath
  | .vNull => ([], [])
  | .vUndefined => ([], [])
  | v => ([invalidTypeErr keyPath v], [])

/-- `validateNamespaceContent` over an object's entries, in order. -/
def vncFields : List (String × JVal) → String →
    List ValidationError × List String
  | [], _ => ([], [])
  | (k, v) :: rest, basePath =>
    let e := vncEntry k v basePath
    let r := vncFields rest basePath
    (e.1 ++ r.1, e.2 ++ r.2)

/-- `validateNamespaceContent` over an array's indexed entries. -/
def vncArr : List JVal → Nat → String → List ValidationError × List String
  | [], _, _ => ([], [])
  | v :: rest, i, basePath =>
    let e := vncEntry (toString i) v basePath
    let r := vncArr rest (i + 1) basePath
    (e.1 ++ r.1, e.2 ++ r.2)

end

/-- The `PROTECTED_NAMESPACE` error: its message names the offending
namespace and lists every allow-listed one. -/
def protectedNamespaceErr (nsPath ns : String) : ValidationError :=
  ⟨nsPath,
    "Namespace " ++ "\x27" ++ ns ++ "\x27" ++ " is not patchable. Allowed: " ++
      String.intercalate ", " PATCHABLE_NAMESPACES,
    "PROTECTED_NAMESPACE"⟩

/-- One namespace entry of `validateContentSection`: a namespace off the
allow-list is `PROTECTED_NAMESPACE` (and its content is skipped); a falsy or
non-object value is `INVALID_NAMESPACE_VALUE`; otherwise the content is
checked key by key. -/
def vcsEntry (ns : String) (values : JVal) (path : String) :
    List ValidationError × List String :=
  let namespacePath := path ++ "." ++ ns
  if PATCHABLE_NAMESPACES.contains ns = false then
    ([protectedNamespaceErr namespacePath ns], [])
  else if objTruthy values = false then
    ([⟨namespacePath, "Namespace value must be an object",
        "INVALID_NAMESPACE_VALUE"⟩], [])
  else
    match values with
    | .vObj fields => vncFields fields namespacePath
    | .vArr xs => vncArr xs 0 namespacePath
    | _ => ([], [])

/-- JS `Object.entries`: an object's fields, or an array's index-keyed
elements. -/
def jsEntries : JVal → List (String × JVal)
  | .vObj fields => fields
  | .vArr xs => xs.enum.map (fun p => (toString p.1, p.2))
  | _ => []

/-- `validateContentSection` over a section's entries, in order. -/
def vcsFields : List (String × JVal) → String →
    List ValidationError × List String
  | [], _ => ([], [])
  | (ns, values) :: rest, path =>
    let e := vcsEntry ns values path
    let r := vcsFields rest path
    (e.1 ++ r.1, e.2 ++ r.2)

/-- `validateContentSection` from schema.ts: a falsy or non-object section
contributes nothing. -/
def validateContentSection (content : JVal) (path : String) :
    List ValidationError × List String :=
  if objTruthy content = false then ([], [])
  else vcsFields (jsEntries content) path

/-- A hexadecimal digit as JSON.stringify prints it. -/
def hexDigit (n : Nat) : Char :=
  if n < 10 then Char.ofNat (48 + n) else Char.ofNat (87 + n)

/-- One character of a JSON-quoted string. -/
def jsonEscapeChar (c : Char) : List Char :=
  if c = '"' then ['\\', '"']
  else if c = '\\' then ['\\', '\\']
  else if c = '\x08' then ['\\', 'b']
  else if c = '\t' then ['\\', 't']
  else if c = '\n' then ['\\', 'n']
  else if c = '\x0c' then ['\\', 'f']
  else if c = '\r' then ['\\', 'r']
  else if c.toNat < 32 then
    ['\\', 'u', '0', '0', hexDigit (c.toNat / 16), hexDigit (c.toNat % 16)]
  else [c]

/-- A JSON string literal. -/
def jsonQuote (s : String) : String :=
  String.mk ('"' :: ((s.data.map jsonEscapeChar).flatten ++ ['"']))

mutual

/-- `JSON.stringify`: undefined is not serializable (it yields no output at
the top level, `null` inside arrays, and drops its key inside objects). -/
def jsonStringify : JVal → Option String
  | .vUndefined => none
  | .vNull => some "null"
  | .vBool b => some (if b then "true" else "false")
  | .vNum n => some (toString n)
  | .vStr s => some (jsonQuote s)
  | .vArr xs => some ("[" ++ String.intercalate "," (jsonArrElems xs) ++ "]")
  | .vObj fields =>
      some ("\x7b" ++ String.intercalate "," (jsonObjFields fields) ++ "\x7d")

/-- Array elements of `JSON.stringify` (undefined prints as `null`). -/
def jsonArrElems : List JVal → List String
  | [] => []
  | v :: rest => ((jsonStringify v).getD "null") :: jsonArrElems rest

/-- Object members of `JSON.stringify` (unserializable values dropped). -/
def jsonObjFields : List (String × JVal) → List String
  | [] => []
  | (k, v) :: rest =>
    match jsonStringify v with
    | none => jsonObjFields rest
    | some sv => (jsonQuote k ++ ":" ++ sv) :: jsonObjFields rest

end

/-- `languages` iteration of `validatePatch`: each language entry is one
content section at `languages.<code>`. -/
def vlangs : List (String × JVal) → List ValidationError × List String
  | [] => ([], [])
  | (lang, content) :: rest =>
    let e := validateContentSection content ("languages." ++ lang)
    let r := vlangs rest
    (e.1 ++ r.1, e.2 ++ r.2)

/-- `validatePatch` from schema.ts: a non-object document (arrays included)
is `INVALID_PATCH_TYPE`; otherwise the metadata, the `universal` section,
each `languages.<code>` section, the at-least-one-content rule and the
serialized-size limits are checked in that order, and the document is valid
exactly when no error was produced. -/
def validatePatch (patch : JVal) : ValidationResult :=
  match patch with
  | .vObj fields =>
    let meta := validateMetadata (getProp (.vObj fields) "metadata")
    let uniVal := (lookupKey fields "universal").getD .vUndefined
    let uni : List ValidationError × List String :=
      match uniVal with
      | .vUndefined => ([], [])
      | .vObj _ => validateContentSection uniVal "universal"
      | .vArr _ => validateContentSection uniVal "universal"
      | _ => ([⟨"universal", "Universal section must be an object",
          "INVALID_UNIVERSAL"⟩], [])
    let langsVal := (lookupKey fields "languages").getD .vUndefined
    let langs : List ValidationError × List String :=
      match langsVal with
      | .vUndefined => ([], [])
      | .vObj _ => vlangs (jsEntries langsVal)
      | .vArr _ => vlangs (jsEntries langsVal)
      | _ => ([⟨"languages", "Languages section must be an object",
          "INVALID_LANGUAGES"⟩], [])
    let noContent : List ValidationError :=
      match uniVal, langsVal with
      | .vUndefined, .vUndefined =>
          [⟨"", "Patch must have at least one of: universal, languages",
            "NO_CONTENT"⟩]
      | _, _ => []
    let jsonSize := jsLength ((jsonStringify (.vObj fields)).getD "")
    let size : List ValidationError × List String :=
      if 5242880 < jsonSize then
        ([⟨"", "Patch exceeds maximum size of 5MB", "PATCH_TOO_LARGE"⟩], [])
      else if 1048576 < jsonSize then
        ([], ["Patch is larger than 1MB, consider splitting into smaller patches"])
      else ([], [])
    let errors := meta.1 ++ uni.1 ++ langs.1 ++ noContent ++ size.1
    ⟨errors.isEmpty, errors, meta.2 ++ uni.2 ++ langs.2 ++ size.2⟩
  | _ =>
    ⟨false, [⟨"", "Patch must be a non-null object", "INVALID_PATCH_TYPE"⟩], []⟩

/-- A well-formed patch document touching only the allow-listed `countries`
namespace. -/
def c1GoodPatch : JVal :=
  .vObj [("metadata", .vObj [("version", .vStr "1.0.0"),
            ("name", .vStr "Good patch")]),
         ("universal", .vObj [("countries", .vObj [("br", .vStr "Brazil")])])]

/-- A patch document whose `universal` section touches the non-allow-listed
namespace `ui`. -/
def c1BadFields : List (String × JVal) :=
  [("metadata", .vObj [("version", .vStr "1.0.0"), ("name", .vStr "Bad")]),
   ("universal", .vObj [("ui", .vObj [("x", .vStr "hi")])])]

/-- A patch document with a `null` leaf under the allow-listed `countries`
namespace. -/
def c6NullLeafPatch : JVal :=
  .vObj [("metadata", .vObj [("version", .vStr "1.0.0"),
            ("name", .vStr "Null leaf")]),
         ("universal", .vObj [("countries", .vObj [("x", .vNull)])])]

/-- A string of 2001 characters. -/
def c6LongStr : String := String.mk (List.replicate 2001 'a')

/-! ## Translation loader (loader.ts)

The storage adapter holds JSON text per key; the embedding stores each
slot's parse result instead: `none` in the inner option marks text that
`JSON.parse` rejects. `JSON.stringify` before a write is modelled by
`jsonNormalize` (dropping unserializable members). External effects of one
`loadTranslations` call — the clock and the remote fetch — enter as
parameters. The interpolation engine's global cache is threaded explicitly
so that its clearing behaviour is visible. -/
/-- One persisted slot: parse result of the stored text. -/
abbrev Store := List (String × Option JVal)

/-- `storage.getItem` followed by `JSON.parse` where applicable. -/
def storageGet : Store → String → Option (Option JVal)
  | [], _ => none
  | (k, v) :: rest, key => if k = key then some v else storageGet rest key

/-- `storage.setItem`. -/
def storageSet : Store → String → Option JVal → Store
  | [], key, v => [(key, v)]
  | (k, w) :: rest, key, v =>
      if k = key then (k, v) :: rest else (k, w) :: storageSet rest key v

/-- `storage.removeItem`. -/
def storageRemove : Store → String → Store
  | [], _ => []
  | (k, v) :: rest, key =>
      if k = key then rest else (k, v) :: storageRemove rest key

/-- `STORAGE_KEYS.REMOTE_CACHE`. -/
def remoteCacheKey (language : String) : String := "@mfcs_remote_" ++ language

/-- `STORAGE_KEYS.REMOTE_TIMESTAMP`. -/
def remoteTsKey (language : String) : String := "@mfcs_remote_ts_" ++ language

/-- `STORAGE_KEYS.LOCAL_PATCH`. -/
def localPatchKey (language : String) : String := "@mfcs_patch_" ++ language

/-- `STORAGE_KEYS.UNIVERSAL_PATCH`. -/
def universalPatchKey : String := "@mfcs_universal_patch"

mutual

/-- The `JSON.stringify`-then-`JSON.parse` round trip of a persisted value:
undefined is unserializable; inside arrays it becomes null; inside objects
its key is dropped. -/
def jsonNormalize : JVal → Option JVal
  | .vUndefined => none
  | .vNull => some .vNull
  | .vBool b => some (.vBool b)
  | .vNum n => some (.vNum n)
  | .vStr s => some (.vStr s)
  | .vArr xs => some (.vArr (jsonNormElems xs))
  | .vObj fields => some (.vObj (jsonNormFields fields))

/-- Round trip of array elements. -/
def jsonNormElems : List JVal → List JVal
  | [] => []
  | v :: rest => ((jsonNormalize v).getD .vNull) :: jsonNormElems rest

/-- Round trip of object fields. -/
def jsonNormFields : List (String × JVal) → List (String × JVal)
  | [] => []
  | (k, v) :: rest =>
    match jsonNormalize v with
    | none => jsonNormFields rest
    | some w => (k, w) :: jsonNormFields rest

end

/-- `parsed.languages?.[language]` (optional chaining). -/
def langSection (parsed : JVal) (language : String) : JVal :=
  match getProp parsed "languages" with
  | .vUndefined => .vUndefined
  | .vNull => .vUndefined
  | w => getProp w language

/-- Sanitize-then-filter of one sub-tree, yielding the layer it contributes
(`if (x) { const s = sanitizePatch(x); if (s) patches.push(filter(s)) }`). -/
def sanitizedLayer (x : JVal) : List (List (String × JVal)) :=
  if jsTruthy x then
    match sanitizePatch x with
    | some s => [filterProtectedNamespaces s]
    | none => []
  else []

/-- The layers the persisted universal patch document contributes in
`loadLocalPatches`: nothing when the slot is absent or unparsable; nothing
when `validatePatch` fails (the whole document is skipped after a logged
warning); otherwise the sanitized and namespace-filtered `universal` section
followed by the sanitized and namespace-filtered
`languages[currentLanguage]` section. -/
def univPatchLayers (u : Option (Option JVal)) (language : String) :
    List (List (String × JVal)) :=
  match u with
  | none => []
  | some none => []
  | some (some parsed) =>
    if (validatePatch parsed).valid = false then []
    else
      sanitizedLayer (getProp parsed "universal") ++
        sanitizedLayer (langSection parsed language)

/-- The layer the standalone persisted language patch contributes in
`loadLocalPatches`: its parse result is sanitized and namespace-filtered —
with no validation — before joining the merge. -/
def stdalonePatchLayers (lp : Option (Option JVal)) :
    List (List (String × JVal)) :=
  match lp with
  | none => []
  | some none => []
  | some (some parsed) =>
    match sanitizePatch parsed with
    | some s => [filterProtectedNamespaces s]
    | none => []

/-- `loadLocalPatches` from loader.ts: the universal document's layers then
the standalone language patch's layer, folded left-to-right through
`deepMerge` into an empty tree; `null` when no patch contributed. -/
def loadLocalPatches (store : Store) (language : String) :
    Option (List (String × JVal)) :=
  let patches :=
    univPatchLayers (storageGet store universalPatchKey) language ++
      stdalonePatchLayers (storageGet store (localPatchKey language))
  if patches.isEmpty then none
  else some (patches.foldl (fun acc p => deepMerge1 acc p) [])

/-- Outcome of the remote `fetch`: a network failure, a non-2xx response
(which the code turns into a thrown error), or a body whose JSON decoding
succeeds or throws. -/
inductive FetchOutcome where
  | fail : FetchOutcome
  | notOk : FetchOutcome
  | ok (body : Option JVal) : FetchOutcome

/-- `getCachedRemote`: the persisted remote snapshot, `null` when absent or
unparsable. -/
def getCachedRemote (store : Store) (language : String) : Option JVal :=
  match storageGet store (remoteCacheKey language) with
  | some (some v) => some v
  | _ => none

/-- `loadRemoteTranslations`: with a fresh timestamp the cached snapshot is
returned without fetching; otherwise the fetch result is sanitized,
namespace-filtered, persisted with the current time, and returned; fetch or
decode failures escape as thrown errors (`Except.error`). -/
def loadRemoteTranslations (store : Store) (language : String)
    (cacheDuration : Int) (now : Int) (fetched : FetchOutcome) :
    Except Unit (Option JVal × Store) :=
  let tsFresh :=
    match storageGet store (remoteTsKey language) with
    | some (some (.vNum t)) => if now - t < cacheDuration then true else false
    | _ => false
  if tsFresh then .ok (getCachedRemote store language, store)
  else
    match fetched with
    | .fail => .error ()
    | .notOk => .error ()
    | .ok none => .error ()
    | .ok (some data) =>
      match sanitizePatch data with
      | some s =>
        let filtered := filterProtectedNamespaces s
        let stored := (jsonNormalize (.vObj filtered)).getD .vNull
        let store1 := storageSet store (remoteCacheKey language) (some stored)
        let store2 := storageSet store1 (remoteTsKey language) (some (.vNum now))
        .ok (some (.vObj filtered), store2)
      | none => .ok (none, store)

/-- `loadTranslations` from loader.ts: base English bundle, then the target
language bundle, then the remote layer (falling back to the cached snapshot
when the fetch path throws), then the local patches; all present layers are
folded left-to-right through `deepMerge` starting from an empty tree, and
the interpolation cache is cleared unconditionally before returning. (The
returned `sources` metadata array and timestamps are not modelled.) -/
def loadTranslations (bundles : List (String × JVal)) (language : String)
    (remoteBaseUrl : Option String) (cacheDuration : Int) (now : Int)
    (fetched : FetchOutcome) (store : Store) (_icache : ICache) :
    List (String × JVal) × Store × ICache :=
  let layers0 : List JVal :=
    match lookupKey bundles "en" with
    | some b => [b]
    | none => []
  let layers1 : List JVal :=
    if language = "en" then []
    else
      match lookupKey bundles language with
      | some t => [t]
      | none => []
  let remoteStep : List JVal × Store :=
    match remoteBaseUrl with
    | none => ([], store)
    | some _ =>
      match loadRemoteTranslations store language cacheDuration now fetched with
      | .ok (some d, store2) => if jsTruthy d then ([d], store2) else ([], store2)
      | .ok (none, store2) => ([], store2)
      | .error _ =>
        ((match getCachedRemote store language with
          | some d => if jsTruthy d then [d] else []
          | none => []), store)
  let layers3 : List JVal :=
    match loadLocalPatches remoteStep.2 language with
    | some p => [.vObj p]
    | none => []
  let layers := layers0 ++ layers1 ++ remoteStep.1 ++ layers3
  let merged := layers.foldl mergeStep []
  (merged, remoteStep.2, [])

/-- `applyUniversalPatch` from loader.ts: validate; on failure return the
result and persist nothing; on success persist the document. The
interpolation cache is not touched on either path. -/
def applyUniversalPatch (patch : JVal) (store : Store) (icache : ICache) :
    ValidationResult × Store × ICache :=
  let validation := validatePatch patch
  if validation.valid = false then (validation, store, icache)
  else
    (validation,
     storageSet store universalPatchKey (some ((jsonNormalize patch).getD .vNull)),
     icache)

/-- `applyLanguagePatch` from loader.ts: wrap the bare tree into a minimal
document, validate, sanitize, filter, persist. The interpolation cache is
not touched on any path. -/
def applyLanguagePatch (language : String) (patch : JVal) (store : Store)
    (icache : ICache) : ValidationResult × Store × ICache :=
  let wrappedPatch : JVal :=
    .vObj [("metadata", .vObj [("version", .vStr "1.0.0"),
              ("name", .vStr (language ++ " patch"))]),
           ("languages", .vObj [(language, patch)])]
  let validation := validatePatch wrappedPatch
  if validation.valid = false then (validation, store, icache)
  else
    match sanitizePatch patch with
    | none =>
      (⟨false, [⟨"", "Sanitization failed", "SANITIZE_FAILED"⟩], []⟩,
        store, icache)
    | some sanitized =>
      (validation,
       storageSet store (localPatchKey language)
         (some ((jsonNormalize
           (.vObj (filterProtectedNamespaces sanitized))).getD .vNull)),
       icache)

/-- `clearPatches` from loader.ts: remove both patch slots and clear the
interpolation cache. -/
def clearPatches (language : String) (store : Store) (_icache : ICache) :
    Store × ICache :=
  (storageRemove (storageRemove store universalPatchKey) (localPatchKey language),
    [])

/-- A store holding only the two patch slots. -/
def mkPatchStore (language : String) (u lp : Option (Option JVal)) : Store :=
  (match u with
   | some x => [(universalPatchKey, x)]
   | none => []) ++
  (match lp with
   | some x => [(localPatchKey language, x)]
   | none => [])

/-- A bare tree touching only the non-allow-listed namespace `ui`, persisted
as a standalone language patch. -/
def c2UiTree : JVal := .vObj [("ui", .vObj [("x", .vStr "hi")])]

/-- `c2UiTree` wrapped the way `applyLanguagePatch` wraps a bare tree. -/
def c2WrappedUiPatch : JVal :=
  .vObj [("metadata", .vObj [("version", .vStr "1.0.0"),
            ("name", .vStr "en patch")]),
         ("languages", .vObj [("en", c2UiTree)])]

/-- A valid universal patch document for the C2 witness. -/
def c2ValidDoc : JVal :=
  .vObj [("metadata", .vObj [("version", .vStr "1.0.0"),
            ("name", .vStr "Valid doc")]),
         ("universal", .vObj [("countries", .vObj [("br", .vStr "Brazil")])])]

/-- A valid universal patch document for the C3 counterexample. -/
def c3ValidPatch : JVal :=
  .vObj [("metadata", .vObj [("version", .vStr "1.0.0"),
            ("name", .vStr "C3 patch")]),
         ("universal", .vObj [("countries", .vObj [("br", .vStr "Brazil")])])]

/-! ## Theorems -/

theorem lookup_setKey_self (l : List (String × JVal)) (k : String) (v : JVal) :
    lookupKey (setKey l k v) k = some v := by
  induction l with
  | nil => simp [setKey, lookupKey]
  | cons p rest ih =>
    obtain ⟨k2, w⟩ := p
    by_cases h : k2 = k
    · subst h
      simp [setKey, lookupKey]
    · simp [setKey, lookupKey, h, ih]

theorem lookup_setKey_other (l : List (String × JVal)) (k : String) (v : JVal)
    (k2 : String) (h : ¬ k2 = k) : lookupKey (setKey l k v) k2 = lookupKey l k2 := by
  induction l with
  | nil => simp [setKey, lookupKey, Ne.symm h]
  | cons p rest ih =>
    obtain ⟨k3, w⟩ := p
    by_cases h3 : k3 = k
    · subst h3
      simp [setKey, lookupKey, Ne.symm h]
    · simp [setKey, h3, lookupKey, ih]

theorem lookup_none_of_not_keyMem (l : List (String × JVal)) (k : String)
    (h : keyMem l k = false) : lookupKey l k = none := by
  induction l with
  | nil => simp [lookupKey]
  | cons p rest ih =>
    obtain ⟨k2, w⟩ := p
    simp only [keyMem, Bool.or_eq_false_iff, decide_eq_false_iff_not] at h
    simp [lookupKey, h.1, ih h.2]

theorem setKey_eq_self (l : List (String × JVal)) (k : String) (v : JVal)
    (h : lookupKey l k = some v) : setKey l k v = l := by
  induction l with
  | nil => simp [lookupKey] at h
  | cons p rest ih =>
    obtain ⟨k2, w⟩ := p
    by_cases h2 : k2 = k
    · subst h2
      simp [lookupKey] at h
      subst h
      simp [setKey]
    · simp only [lookupKey, if_neg h2] at h
      simp [setKey, h2, ih h]

theorem keyMem_of_mem (l : List (String × JVal)) (k : String) (v : JVal)
    (h : (k, v) ∈ l) : keyMem l k = true := by
  induction l with
  | nil => simp at h
  | cons p rest ih =>
    obtain ⟨k2, w⟩ := p
    rcases List.mem_cons.mp h with h1 | h1
    · injection h1 with ha hb
      subst ha
      simp [keyMem]
    · simp [keyMem, ih h1]

theorem lookup_self_of_nodup (l : List (String × JVal)) (k : String) (v : JVal)
    (hnd : nodupKeys l = true) (hmem : (k, v) ∈ l) : lookupKey l k = some v := by
  induction l with
  | nil => simp at hmem
  | cons p rest ih =>
    obtain ⟨k2, w⟩ := p
    simp only [nodupKeys, Bool.and_eq_true, Bool.not_eq_true'] at hnd
    rcases List.mem_cons.mp hmem with h1 | h1
    · injection h1 with ha hb
      subst ha
      subst hb
      simp [lookupKey]
    · have hne : ¬ k2 = k := by
        intro he
        have hmm := keyMem_of_mem rest k v h1
        rw [he] at hnd
        rw [hmm] at hnd
        simp at hnd
      simp [lookupKey, hne, ih hnd.2 h1]

theorem wfFieldList_mem (l : List (String × JVal)) (k : String) (v : JVal)
    (hwf : wfFieldList l = true) (hmem : (k, v) ∈ l) : wfVal v = true := by
  induction l with
  | nil => simp at hmem
  | cons p rest ih =>
    obtain ⟨k2, w⟩ := p
    simp only [wfFieldList, Bool.and_eq_true] at hwf
    rcases List.mem_cons.mp hmem with h1 | h1
    · injection h1 with ha hb
      subst hb
      exact hwf.1
    · exact ih hwf.2 h1

/-- The per-key contract of one merge pass: a key absent from the source (or
bound to undefined there) keeps the target's value; a key whose values are
plain objects on both sides is merged recursively; any other key takes the
source value outright. -/
theorem deepMerge1_lookup (source : List (String × JVal))
    (hnd : nodupKeys source = true) (result : List (String × JVal)) (k : String) :
    lookupKey (deepMerge1 result source) k =
      (match lookupKey source k, lookupKey result k with
       | none, _ => lookupKey result k
       | some .vUndefined, _ => lookupKey result k
       | some (.vObj sf), some (.vObj tf) => some (.vObj (deepMerge1 tf sf))
       | some sv, _ => some sv) := by
  induction source generalizing result with
  | nil => simp [deepMerge1, lookupKey]
  | cons p rest ih =>
    obtain ⟨key, sv⟩ := p
    simp only [nodupKeys, Bool.and_eq_true, Bool.not_eq_true'] at hnd
    have hrestnone : lookupKey rest key = none :=
      lookup_none_of_not_keyMem rest key hnd.1
    have ih2 := ih hnd.2
    by_cases hk : key = k
    · subst hk
      rcases sv with _ | _ | b | n | s | xs | sf
      · simp [deepMerge1, ih2, lookupKey, hrestnone, lookup_setKey_self]
      · simp [deepMerge1, ih2, lookupKey, hrestnone, lookup_setKey_self]
      · simp [deepMerge1, ih2, lookupKey, hrestnone, lookup_setKey_self]
      · simp [deepMerge1, ih2, lookupKey, hrestnone, lookup_setKey_self]
      · simp [deepMerge1, ih2, lookupKey, hrestnone, lookup_setKey_self]
      · simp [deepMerge1, ih2, lookupKey, hrestnone, lookup_setKey_self]
      · rcases htv : lookupKey result key with _ | tv
        · simp [deepMerge1, ih2, lookupKey, hrestnone, htv, lookup_setKey_self]
        · cases tv <;>
            simp [deepMerge1, ih2, lookupKey, hrestnone, htv, lookup_setKey_self]
    · have hk2 : ¬ k = key := fun h => hk h.symm
      rcases sv with _ | _ | b | n | s | xs | sf
      · simp [deepMerge1, ih2, lookupKey, hk, hk2, hrestnone, lookup_setKey_other]
      · simp [deepMerge1, ih2, lookupKey, hk, hk2, hrestnone, lookup_setKey_other]
      · simp [deepMerge1, ih2, lookupKey, hk, hk2, hrestnone, lookup_setKey_other]
      · simp [deepMerge1, ih2, lookupKey, hk, hk2, hrestnone, lookup_setKey_other]
      · simp [deepMerge1, ih2, lookupKey, hk, hk2, hrestnone, lookup_setKey_other]
      · simp [deepMerge1, ih2, lookupKey, hk, hk2, hrestnone, lookup_setKey_other]
      · rcases htv : lookupKey result key with _ | tv
        · simp [deepMerge1, ih2, lookupKey, hk, hk2, hrestnone, htv,
            lookup_setKey_other]
        · cases tv <;>
            simp [deepMerge1, ih2, lookupKey, hk, hk2, hrestnone, htv,
              lookup_setKey_other]

theorem deepMerge1_id_aux (n : Nat) :
    ∀ (source result : List (String × JVal)), sizeOf source ≤ n →
    (∀ p ∈ source, lookupKey result p.1 = some p.2 ∧ wfVal p.2 = true) →
    deepMerge1 result source = result := by
  induction n with
  | zero =>
    intro source result hs _
    cases source with
    | nil => simp [deepMerge1]
    | cons p rest =>
      exfalso
      simp [List.cons.sizeOf_spec] at hs
  | succ m ihn =>
    intro source result hs hinv
    cases source with
    | nil => simp [deepMerge1]
    | cons p rest =>
      obtain ⟨key, sv⟩ := p
      have hsz : sizeOf rest ≤ m := by
        simp [List.cons.sizeOf_spec] at hs
        omega
      have hlook := (hinv (key, sv) (List.mem_cons_self _ _)).1
      have hwfv := (hinv (key, sv) (List.mem_cons_self _ _)).2
      have hrest : ∀ p ∈ rest, lookupKey result p.1 = some p.2 ∧ wfVal p.2 = true :=
        fun p hp => hinv p (List.mem_cons_of_mem _ hp)
      rcases sv with _ | _ | b | n2 | s | xs | sf
      · simp only [deepMerge1]
        exact ihn rest result hsz hrest
      · simp only [deepMerge1]
        rw [setKey_eq_self _ _ _ hlook]
        exact ihn rest result hsz hrest
      · simp only [deepMerge1]
        rw [setKey_eq_self _ _ _ hlook]
        exact ihn rest result hsz hrest
      · simp only [deepMerge1]
        rw [setKey_eq_self _ _ _ hlook]
        exact ihn rest result hsz hrest
      · simp only [deepMerge1]
        rw [setKey_eq_self _ _ _ hlook]
        exact ihn rest result hsz hrest
      · simp only [deepMerge1]
        rw [setKey_eq_self _ _ _ hlook]
        exact ihn rest result hsz hrest
      · have hwf2 : nodupKeys sf = true ∧ wfFieldList sf = true := by
          simpa [wfVal] using hwfv
        have hin : deepMerge1 sf sf = sf := by
          apply ihn sf sf ?_ ?_
          · simp [List.cons.sizeOf_spec] at hs
            omega
          · intro q hq
            obtain ⟨qk, qv⟩ := q
            exact ⟨lookup_self_of_nodup sf qk qv hwf2.1 hq,
              wfFieldList_mem sf qk qv hwf2.2 hq⟩
        simp only [deepMerge1, hlook, hin]
        rw [setKey_eq_self _ _ _ hlook]
        exact ihn rest result hsz hrest

theorem deepMerge1_idem (A : List (String × JVal)) (hwf : wfVal (.vObj A) = true) :
    deepMerge1 A A = A := by
  have hwf2 : nodupKeys A = true ∧ wfFieldList A = true := by
    simpa [wfVal] using hwf
  apply deepMerge1_id_aux (sizeOf A) A A (le_refl _)
  intro p hp
  obtain ⟨pk, pv⟩ := p
  exact ⟨lookup_self_of_nodup A pk pv hwf2.1 hp, wfFieldList_mem A pk pv hwf2.2 hp⟩

/-- C4: `deepMerge` folds its sources in order into (a copy of) the base,
skipping sources that are not plain objects, and for each key of a source
object with unique keys: a key absent from the source or bound to undefined
keeps the existing value; a key whose existing and incoming values are both
plain objects is merged recursively; any other incoming value — arrays
included, which are replaced wholesale — overrides the existing one. The
embedding is a pure function, so base and sources are never mutated. -/
theorem deepMerge_per_key_contract :
    (∀ t, deepMerge t [] = t) ∧
    (∀ t s ss, deepMerge t (s :: ss) = deepMerge (mergeStep t s) ss) ∧
    (∀ t s, isPlainObject s = false → mergeStep t s = t) ∧
    (∀ source, nodupKeys source = true → ∀ result k,
      lookupKey (deepMerge1 result source) k =
        (match lookupKey source k, lookupKey result k with
         | none, _ => lookupKey result k
         | some .vUndefined, _ => lookupKey result k
         | some (.vObj sf), some (.vObj tf) => some (.vObj (deepMerge1 tf sf))
         | some sv, _ => some sv)) ∧
    (∀ source, nodupKeys source = true → ∀ result k xs,
      lookupKey source k = some (.vArr xs) →
      lookupKey (deepMerge1 result source) k = some (.vArr xs)) := by
  refine ⟨fun t => rfl, fun t s ss => rfl, ?_, deepMerge1_lookup, ?_⟩
  · intro t s h
    cases s <;> simp [mergeStep, isPlainObject] at h ⊢
  · intro source hnd result k xs hx
    rw [deepMerge1_lookup source hnd result k, hx]

/-- Witness for C4 at concrete inputs: an array in the source replaces the
object in the target wholesale. -/
theorem deepMerge_per_key_contract_witness :
    nodupKeys [("a", JVal.vArr [.vStr "x"])] = true ∧
    lookupKey [("a", JVal.vArr [.vStr "x"])] "a" = some (.vArr [.vStr "x"]) ∧
    lookupKey
        (deepMerge1 [("a", JVal.vObj [("q", .vStr "old")])]
          [("a", JVal.vArr [.vStr "x"])]) "a"
      = some (.vArr [.vStr "x"]) :=
  ⟨rfl, rfl,
    deepMerge_per_key_contract.2.2.2.2 [("a", JVal.vArr [.vStr "x"])] rfl
      [("a", JVal.vObj [("q", .vStr "old")])] "a" [.vStr "x"] rfl⟩

/-- C5: the merge is idempotent on well-formed trees — `merge(A, A) = A` —
and folding `merge(A, B, C)` equals `merge(merge(A, B), C)`, so in
particular every leaf path resolves to the same value in both. -/
theorem deepMerge_idempotent_and_assoc :
    (∀ A, wfVal (.vObj A) = true → deepMerge A [.vObj A] = A) ∧
    (∀ A B C p, getNestedValue (deepMerge A [B, C]) p
        = getNestedValue (deepMerge (deepMerge A [B]) [C]) p) := by
  constructor
  · intro A h
    simpa [deepMerge, mergeStep] using deepMerge1_idem A h
  · intro A B C p
    rfl

/-- Witness for C5 at a concrete nested tree. -/
theorem deepMerge_idempotent_and_assoc_witness :
    wfVal (.vObj [("a", JVal.vObj [("b", .vStr "x")])]) = true ∧
    deepMerge [("a", JVal.vObj [("b", .vStr "x")])]
        [.vObj [("a", JVal.vObj [("b", .vStr "x")])]]
      = [("a", JVal.vObj [("b", .vStr "x")])] :=
  ⟨rfl, deepMerge_idempotent_and_assoc.1 [("a", JVal.vObj [("b", .vStr "x")])] rfl⟩

theorem dropLit_append (pre l : List Char) : dropLit pre (pre ++ l) = some l := by
  induction pre with
  | nil => simp [dropLit]
  | cons c cs ih => simp [dropLit, ih]

theorem listContains_of_dropLit (needle l : List Char)
    (h : (dropLit needle l).isSome = true) : listContains needle l = true := by
  cases l <;> simp [listContains, h]

theorem munchWhile_append (p : Char → Bool) (a : List Char) (b : Char)
    (r : List Char) (ha : ∀ c ∈ a, p c = true) (hb : p b = false) :
    munchWhile p (a ++ b :: r) = (a, b :: r) := by
  induction a with
  | nil => simp [munchWhile, hb]
  | cons c cs ih =>
    have hc := ha c (List.mem_cons_self _ _)
    simp [munchWhile, hc, ih (fun d hd => ha d (List.mem_cons_of_mem _ hd))]

theorem replaceScan_single (m : List Char → Option (List Char × List Char))
    (c : Char) (rest repl : List Char) (hm : m (c :: rest) = some (repl, [])) :
    replaceScan m (c :: rest) = repl := by
  simp [replaceScan, replaceScanF, hm]

/-- C7: with the cache bypassed, `interpolate` is exactly the composition of
the three stages in the fixed order references → plurals → variables; a
reference placeholder whose path does not resolve to a string in the supplied
tree becomes the visible fallback `[path]` (no exception is possible — the
embedding is a total function); a variable placeholder whose key is absent
from the context is left in the output verbatim. -/
theorem interpolate_order_and_placeholder_fallbacks :
    (∀ t c tr cache, interpolate t c tr false cache
        = (resolveVariables (resolvePlurals (resolveReferences t tr) c) c, cache)) ∧
    (∀ (d : List Char) tr, ¬ d = [] → (∀ ch ∈ d, isRefChar ch = true) →
      (∀ s, ¬ getNestedValue tr (String.mk d) = .vStr s) →
      resolveReferences (String.mk (refOpen ++ (d ++ brace2))) tr
        = String.mk (('[' :: d) ++ [']'])) ∧
    (∀ (d : List Char) c, ¬ d = [] → (∀ ch ∈ d, isWordChar ch = true) →
      lookupKey c (String.mk d) = none →
      resolveVariables (String.mk ('\x7b' :: (d ++ ['\x7d']))) c
        = String.mk ('\x7b' :: (d ++ ['\x7d']))) := by
  refine ⟨?_, ?_, ?_⟩
  · intro t c tr cache
    by_cases ht : t = ""
    · subst ht
      have hv : resolveVariables (resolvePlurals (resolveReferences "" tr) c) c
          = "" := rfl
      simp [interpolate, hv]
    · simp [interpolate, ht]
  · intro d tr hne hcls hnstr
    have hmatch : matchRef tr
          ('\x7b' :: ('\x7b' :: 'r' :: 'e' :: 'f' :: ':' :: (d ++ brace2)))
        = some (('[' :: d) ++ [']'], []) := by
      have hdrop : dropLit refOpen
            ('\x7b' :: ('\x7b' :: 'r' :: 'e' :: 'f' :: ':' :: (d ++ brace2)))
          = some (d ++ brace2) := dropLit_append refOpen (d ++ brace2)
      simp only [matchRef, hdrop]
      rw [show d ++ brace2 = d ++ '\x7d' :: ['\x7d'] from rfl]
      rw [munchWhile_append isRefChar d '\x7d' ['\x7d'] hcls (by decide)]
      cases hv : getNestedValue tr (String.mk d) <;>
        simp [hne, dropLit]
      exact absurd hv (hnstr _)
    have hcont : listContains refOpen ((String.mk (refOpen ++ (d ++ brace2))).data)
        = true := by
      apply listContains_of_dropLit
      rw [show (String.mk (refOpen ++ (d ++ brace2))).data
        = refOpen ++ (d ++ brace2) from rfl]
      rw [dropLit_append]
      rfl
    rw [resolveReferences, if_pos hcont]
    exact congrArg String.mk
      (replaceScan_single (matchRef tr) '\x7b'
        ('\x7b' :: 'r' :: 'e' :: 'f' :: ':' :: (d ++ brace2))
        (('[' :: d) ++ [']']) hmatch)
  · intro d c hne hcls hlook
    have hmatch : matchVar c ('\x7b' :: (d ++ ['\x7d']))
        = some (('\x7b' :: d) ++ ['\x7d'], []) := by
      simp only [matchVar]
      rw [munchWhile_append isWordChar d '\x7d' [] hcls (by decide)]
      simp [hne, hlook]
    have hcont : listContains ['\x7b']
        ((String.mk ('\x7b' :: (d ++ ['\x7d']))).data) = true := by
      apply listContains_of_dropLit
      rfl
    rw [resolveVariables, if_pos hcont]
    have := congrArg String.mk
      (replaceScan_single (matchVar c) '\x7b' (d ++ ['\x7d'])
        (('\x7b' :: d) ++ ['\x7d']) hmatch)
    rw [this]
    exact congrArg String.mk (by simp)

/-- Witness for C7 at concrete inputs: an unknown reference path falls back
to `[a.b]`, and a variable with no context entry is preserved verbatim. -/
theorem interpolate_order_and_placeholder_fallbacks_witness :
    (¬ (['a', '.', 'b'] : List Char) = []) ∧
    (∀ ch ∈ (['a', '.', 'b'] : List Char), isRefChar ch = true) ∧
    (∀ s, ¬ getNestedValue [] (String.mk ['a', '.', 'b']) = .vStr s) ∧
    resolveReferences (String.mk (refOpen ++ (['a', '.', 'b'] ++ brace2))) []
      = String.mk (('[' :: ['a', '.', 'b']) ++ [']']) ∧
    lookupKey [] (String.mk ['n']) = none ∧
    resolveVariables (String.mk ('\x7b' :: (['n'] ++ ['\x7d']))) []
      = String.mk ('\x7b' :: (['n'] ++ ['\x7d'])) := by
  refine ⟨by decide, by decide, ?_, ?_, rfl, ?_⟩
  · intro s h
    exact JVal.noConfusion h
  · exact interpolate_order_and_placeholder_fallbacks.2.1 ['a', '.', 'b'] []
      (by decide) (by decide) (fun s h => JVal.noConfusion h)
  · exact interpolate_order_and_placeholder_fallbacks.2.2 ['n'] []
      (by decide) (by decide) rfl

theorem lookupS_mapSetS_self (l : ICache) (k v : String) :
    lookupS (mapSetS l k v) k = some v := by
  induction l with
  | nil => simp [mapSetS, lookupS]
  | cons p rest ih =>
    obtain ⟨k2, w⟩ := p
    by_cases h : k2 = k
    · subst h
      simp [mapSetS, lookupS]
    · simp [mapSetS, lookupS, h, ih]

theorem lookupS_append_right (l : ICache) (k v : String)
    (h : lookupS l k = none) : lookupS (l ++ [(k, v)]) k = some v := by
  induction l with
  | nil => simp [lookupS]
  | cons p rest ih =>
    obtain ⟨k2, w⟩ := p
    simp only [lookupS] at h
    by_cases h2 : k2 = k
    · simp [h2] at h
    · simp only [h2, if_neg h2, if_false] at h
      simp [lookupS, h2, ih h]

theorem lookupS_none_of_not_keyMemS (l : ICache) (k : String)
    (h : keyMemS l k = false) : lookupS l k = none := by
  induction l with
  | nil => simp [lookupS]
  | cons p rest ih =>
    obtain ⟨k2, w⟩ := p
    simp only [keyMemS, Bool.or_eq_false_iff, decide_eq_false_iff_not] at h
    simp [lookupS, h.1, ih h.2]

theorem lookupS_erase_none (l : ICache) (k : String) (hnd : nodupS l = true) :
    lookupS (eraseKeyS l k) k = none := by
  induction l with
  | nil => simp [eraseKeyS, lookupS]
  | cons p rest ih =>
    obtain ⟨k2, w⟩ := p
    simp only [nodupS, Bool.and_eq_true, Bool.not_eq_true'] at hnd
    by_cases h : k2 = k
    · subst h
      simpa [eraseKeyS] using lookupS_none_of_not_keyMemS rest k2 hnd.1
    · simp [eraseKeyS, h, lookupS, ih hnd.2]

theorem eraseKeyS_length (l : ICache) (k v : String)
    (h : lookupS l k = some v) : (eraseKeyS l k).length + 1 = l.length := by
  induction l with
  | nil => simp [lookupS] at h
  | cons p rest ih =>
    obtain ⟨k2, w⟩ := p
    by_cases h2 : k2 = k
    · subst h2
      simp [eraseKeyS]
    · simp only [lookupS, if_neg h2] at h
      simp [eraseKeyS, h2, ih h]

theorem interpolate_caches (t : String) (c tr : List (String × JVal))
    (cache : ICache) (hnd : nodupS cache = true) (ht : ¬ t = "") :
    lookupS (interpolate t c tr true cache).2 (generateKey t c)
      = some (interpolate t c tr true cache).1 := by
  simp only [interpolate, if_neg ht]
  cases hg : lookupS cache (generateKey t c) with
  | none =>
    simp [cacheGetRaw, hg, cacheSetRaw, lookupS_mapSetS_self]
  | some v =>
    simp only [cacheGetRaw, hg, if_true]
    exact lookupS_append_right _ _ _ (lookupS_erase_none cache _ hnd)

/-- C8: the cache key is built from the template and context only, never
from the translations tree: once a first call (with any tree `T1`) has run
with caching on, a second call with the same template and context but an
arbitrary other tree `T2` returns exactly the value the first call produced,
and the cache size does not change. -/
theorem interpolate_cache_key_ignores_tree (t : String)
    (c T1 T2 : List (String × JVal)) (cache : ICache)
    (hnd : nodupS cache = true) :
    (interpolate t c T2 true (interpolate t c T1 true cache).2).1
        = (interpolate t c T1 true cache).1 ∧
    (interpolate t c T2 true (interpolate t c T1 true cache).2).2.length
        = (interpolate t c T1 true cache).2.length := by
  by_cases ht : t = ""
  · subst ht
    simp [interpolate]
  · have hc := interpolate_caches t c T1 cache hnd ht
    rcases hp : interpolate t c T1 true cache with ⟨r1, c1⟩
    rw [hp] at hc
    simp only at hc ⊢
    have hl := eraseKeyS_length c1 (generateKey t c) r1 hc
    constructor
    · simp [interpolate, ht, cacheGetRaw, hc]
    · simp [interpolate, ht, cacheGetRaw, hc, List.length_append]
      omega

/-- Witness for C8 at concrete inputs: after caching `"a {x}"` against the
tree `T1`, the same call against the empty tree returns the same string with
the same cache size. -/
theorem interpolate_cache_key_ignores_tree_witness :
    nodupS [] = true ∧
    (interpolate "a" [] [] true (interpolate "a" [] [("k", JVal.vStr "v")] true []).2).1
        = (interpolate "a" [] [("k", JVal.vStr "v")] true []).1 ∧
    (interpolate "a" [] [] true (interpolate "a" [] [("k", JVal.vStr "v")] true []).2).2.length
        = (interpolate "a" [] [("k", JVal.vStr "v")] true []).2.length :=
  ⟨rfl, interpolate_cache_key_ignores_tree "a" [] [("k", JVal.vStr "v")] [] [] rfl⟩

/-- C10: a call with `useCache = false` returns the cache exactly as it was
— no entry added, removed or reordered — and its result string is the one
computed from the template, context and tree alone, independent of the
cache's contents. -/
theorem interpolate_bypass_cache_frame (t : String)
    (c tr : List (String × JVal)) (cache : ICache) :
    (interpolate t c tr false cache).2 = cache ∧
    (interpolate t c tr false cache).1 = (interpolate t c tr false []).1 := by
  by_cases ht : t = "" <;> simp [interpolate, ht]

/-- C9: with default options `sanitizeString` is exactly the five-stage
pipeline — dangerous-pattern removal (script/iframe/object/embed/style/link/
meta tags, `javascript:`/`vbscript:`/`data:text/html` URIs, event-handler
attributes, CSS `expression(`, HTML comments, per
`removeDangerousPatterns`), then HTML-tag stripping, then control-character
removal (newline and tab kept), then trimming, then truncation to 2000
units — and on `"<script>alert(1)</script>hello"` it returns `"hello"`. -/
theorem sanitizeString_pipeline_and_example :
    (∀ s : String, sanitizeString s {} =
      (let r2 := stripHtmlTags (removeDangerousPatterns s)
       let r3 := removeControlCharsStr r2
       let r4 := jsTrim r3
       if 2000 < jsLength r4 then String.mk (utf16Take 2000 r4.data) else r4)) ∧
    sanitizeString ("<script>alert(1)</script>hello") {} = "hello" := by
  exact ⟨fun s => rfl, rfl⟩

theorem isEmpty_false_of_mem {α : Type} {e : α} {l : List α} (h : e ∈ l) :
    l.isEmpty = false := by
  cases l with
  | nil => simp at h
  | cons a t => rfl

theorem validatePatch_valid_iff (p : JVal) :
    (validatePatch p).valid = (validatePatch p).errors.isEmpty := by
  cases p <;> rfl

theorem vcsFields_protected_mem (entries : List (String × JVal))
    (path ns : String) (v : JVal) (hmem : (ns, v) ∈ entries)
    (hns : PATCHABLE_NAMESPACES.contains ns = false) :
    protectedNamespaceErr (path ++ "." ++ ns) ns ∈ (vcsFields entries path).1 := by
  have hns2 : ¬ ns ∈ PATCHABLE_NAMESPACES := by simpa using hns
  induction entries with
  | nil => simp at hmem
  | cons p2 rest ih =>
    obtain ⟨ns2, v2⟩ := p2
    rcases List.mem_cons.mp hmem with h1 | h1
    · injection h1 with ha hb
      subst ha
      simp [vcsFields, vcsEntry, hns, hns2]
    · simp only [vcsFields]
      exact List.mem_append.mpr (Or.inr (ih h1))

theorem vlangs_mem (langs : List (String × JVal)) (lang : String) (sec : JVal)
    (e : ValidationError) (hmem : (lang, sec) ∈ langs)
    (he : e ∈ (validateContentSection sec ("languages." ++ lang)).1) :
    e ∈ (vlangs langs).1 := by
  induction langs with
  | nil => simp at hmem
  | cons p2 rest ih =>
    obtain ⟨lang2, sec2⟩ := p2
    rcases List.mem_cons.mp hmem with h1 | h1
    · injection h1 with ha hb
      subst ha
      subst hb
      simp only [vlangs]
      exact List.mem_append.mpr (Or.inl he)
    · simp only [vlangs]
      exact List.mem_append.mpr (Or.inr (ih h1))

/-- C1: a patch whose `universal` section (or any `languages.<code>`
section) contains a top-level namespace off the allow-list is invalid, with
a `PROTECTED_NAMESPACE` error at that namespace's path whose message names
the namespace and lists every allowed one (see `protectedNamespaceErr`);
conversely the concrete patch `c1GoodPatch`, which uses only the
allow-listed `countries` namespace with well-formed metadata, validates
with no error at all. -/
theorem validatePatch_protected_namespace :
    (∀ (fields uni : List (String × JVal)) (ns : String) (v : JVal),
      lookupKey fields "universal" = some (.vObj uni) →
      (ns, v) ∈ uni →
      PATCHABLE_NAMESPACES.contains ns = false →
      (validatePatch (.vObj fields)).valid = false ∧
      protectedNamespaceErr ("universal." ++ ns) ns
        ∈ (validatePatch (.vObj fields)).errors) ∧
    (∀ (fields langs secf : List (String × JVal)) (lang ns : String) (v : JVal),
      lookupKey fields "languages" = some (.vObj langs) →
      (lang, JVal.vObj secf) ∈ langs →
      (ns, v) ∈ secf →
      PATCHABLE_NAMESPACES.contains ns = false →
      (validatePatch (.vObj fields)).valid = false ∧
      protectedNamespaceErr ("languages." ++ lang ++ "." ++ ns) ns
        ∈ (validatePatch (.vObj fields)).errors) ∧
    ((validatePatch c1GoodPatch).valid = true ∧
      (validatePatch c1GoodPatch).errors = []) := by
  refine ⟨?_, ?_, rfl, rfl⟩
  · intro fields uni ns v hu hmem hns
    have hin : protectedNamespaceErr ("universal." ++ ns) ns
        ∈ (validatePatch (.vObj fields)).errors := by
      have hvcs := vcsFields_protected_mem uni "universal" ns v hmem hns
      rw [show ("universal" : String) ++ "." = "universal." from rfl] at hvcs
      simp only [validatePatch, hu, Option.getD, validateContentSection,
        objTruthy, jsEntries]
      simp [List.mem_append, hvcs]
    exact ⟨by rw [validatePatch_valid_iff]; exact isEmpty_false_of_mem hin, hin⟩
  · intro fields langs secf lang ns v hl hlm hmem hns
    have hin : protectedNamespaceErr ("languages." ++ lang ++ "." ++ ns) ns
        ∈ (validatePatch (.vObj fields)).errors := by
      have hvcs := vcsFields_protected_mem secf ("languages." ++ lang) ns v hmem hns
      have hsec : protectedNamespaceErr ("languages." ++ lang ++ "." ++ ns) ns
          ∈ (validateContentSection (.vObj secf) ("languages." ++ lang)).1 := by
        simp only [validateContentSection, objTruthy, jsEntries]
        exact hvcs
      have hvl := vlangs_mem langs lang (.vObj secf) _ hlm hsec
      simp only [validatePatch, hl, Option.getD, jsEntries]
      simp [List.mem_append, hvl]
    exact ⟨by rw [validatePatch_valid_iff]; exact isEmpty_false_of_mem hin, hin⟩

/-- Witness for C1 at a concrete patch: the namespace `ui` is off the
allow-list and makes the document invalid with the expected error. -/
theorem validatePatch_protected_namespace_witness :
    lookupKey c1BadFields "universal"
        = some (.vObj [("ui", JVal.vObj [("x", .vStr "hi")])]) ∧
    ("ui", JVal.vObj [("x", .vStr "hi")])
        ∈ [("ui", JVal.vObj [("x", .vStr "hi")])] ∧
    PATCHABLE_NAMESPACES.contains "ui" = false ∧
    ((validatePatch (.vObj c1BadFields)).valid = false ∧
      protectedNamespaceErr ("universal." ++ "ui") "ui"
        ∈ (validatePatch (.vObj c1BadFields)).errors) :=
  ⟨rfl, List.mem_singleton.mpr rfl, rfl,
    validatePatch_protected_namespace.1 c1BadFields
      [("ui", JVal.vObj [("x", .vStr "hi")])] "ui"
      (JVal.vObj [("x", .vStr "hi")]) rfl (List.mem_singleton.mpr rfl) rfl⟩

/-- Counterexample to C6 as stated: a `null` leaf is neither a string nor a
nested object, yet `validatePatch` accepts the document with no error at all
(in particular no `INVALID_VALUE_TYPE`) — the code silently skips null and
undefined values. -/
theorem vnc_null_leaf_cex :
    (validatePatch c6NullLeafPatch).valid = true ∧
    (validatePatch c6NullLeafPatch).errors = [] ∧
    vncFields [("x", JVal.vNull)] "universal.countries" = ([], []) :=
  ⟨rfl, rfl, rfl⟩

/-- C6 as amended: under an allow-listed namespace, a string longer than
2000 units is `STRING_TOO_LONG`; a nested object — or array, which `typeof`
calls an object — is recursed into; a null or undefined value is silently
skipped with no error and no warning; every other value type is
`INVALID_VALUE_TYPE` at that path; and an empty string produces a warning
but no error. -/
theorem vnc_leaf_type_rules (k path : String) :
    (∀ s : String, 2000 < jsLength s →
      vncFields [(k, .vStr s)] path = ([tooLongErr (path ++ "." ++ k)], [])) ∧
    (vncFields [(k, .vStr "")] path
        = ([], ["Empty string at " ++ path ++ "." ++ k])) ∧
    (∀ s : String, ¬ s = "" → jsLength s ≤ 2000 →
      vncFields [(k, .vStr s)] path = ([], [])) ∧
    (∀ fields, vncFields [(k, .vObj fields)] path
        = vncFields fields (path ++ "." ++ k)) ∧
    (∀ xs, vncFields [(k, .vArr xs)] path = vncArr xs 0 (path ++ "." ++ k)) ∧
    (vncFields [(k, .vNull)] path = ([], [])) ∧
    (vncFields [(k, .vUndefined)] path = ([], [])) ∧
    (∀ n : Int, vncFields [(k, .vNum n)] path
        = ([invalidTypeErr (path ++ "." ++ k) (.vNum n)], [])) ∧
    (∀ b, vncFields [(k, .vBool b)] path
        = ([invalidTypeErr (path ++ "." ++ k) (.vBool b)], [])) := by
  refine ⟨?_, ?_, ?_, ?_, ?_, rfl, rfl, fun n => rfl, fun b => rfl⟩
  · intro s h
    have hne : ¬ s = "" := by
      intro he
      subst he
      simp [jsLength] at h
    simp [vncFields, vncEntry, hne, h]
  · rfl
  · intro s hne hle
    have : ¬ 2000 < jsLength s := by omega
    simp [vncFields, vncEntry, hne, this]
  · intro fields
    simp [vncFields, vncEntry]
  · intro xs
    simp [vncFields, vncEntry]

theorem jsLength_replicate_a (n : Nat) :
    jsLength (String.mk (List.replicate n 'a')) = n := by
  have key : ∀ (m acc : Nat),
      List.foldl (fun k c => k + (if 65536 ≤ c.toNat then 2 else 1)) acc
        (List.replicate m 'a') = acc + m := by
    intro m
    induction m with
    | zero => intro acc; simp
    | succ j ih =>
      intro acc
      rw [List.replicate_succ, List.foldl_cons, ih]
      rw [show (if 65536 ≤ ('a' : Char).toNat then 2 else 1) = 1 from by decide]
      omega
  simpa [jsLength] using key n 0

/-- Witness for the amended C6 at concrete inputs: an over-long string is
rejected, a short one passes. -/
theorem vnc_leaf_type_rules_witness :
    2000 < jsLength c6LongStr ∧
    vncFields [("x", .vStr c6LongStr)] "universal.countries"
        = ([tooLongErr ("universal.countries" ++ "." ++ "x")], []) ∧
    (¬ "ok" = "") ∧ jsLength "ok" ≤ 2000 ∧
    vncFields [("x", .vStr "ok")] "universal.countries" = ([], []) := by
  have hlong : 2000 < jsLength c6LongStr := by
    rw [show jsLength c6LongStr = 2001 from jsLength_replicate_a 2001]
    omega
  exact ⟨hlong, (vnc_leaf_type_rules "x" "universal.countries").1 c6LongStr hlong,
    by decide, by decide,
    (vnc_leaf_type_rules "x" "universal.countries").2.2.1 "ok" (by decide) (by decide)⟩

theorem universalPatchKey_ne_localPatchKey (language : String) :
    ¬ universalPatchKey = localPatchKey language := by
  intro h
  have hd := congrArg String.data h
  simp only [localPatchKey, universalPatchKey, String.data_append] at hd
  have h6 := congrArg (fun l : List Char => l[6]?) hd
  simp only at h6
  rw [List.getElem?_append_left (by decide)] at h6
  exact absurd h6 (by decide)

theorem storageGet_mkPatchStore_univ (language : String)
    (u lp : Option (Option JVal)) :
    storageGet (mkPatchStore language u lp) universalPatchKey = u := by
  have hne : ¬ localPatchKey language = universalPatchKey :=
    fun hh => universalPatchKey_ne_localPatchKey language hh.symm
  cases u <;> cases lp <;> simp [mkPatchStore, storageGet, hne]

theorem storageGet_mkPatchStore_lang (language : String)
    (u lp : Option (Option JVal)) :
    storageGet (mkPatchStore language u lp) (localPatchKey language) = lp := by
  have hne : ¬ universalPatchKey = localPatchKey language :=
    universalPatchKey_ne_localPatchKey language
  cases u <;> cases lp <;> simp [mkPatchStore, storageGet, hne]

/-- Counterexample to C2 as stated: the standalone persisted
language-specific patch reaches the merge without ever being validated —
here a tree that `validatePatch` rejects outright (both bare and wrapped as
a document, its namespace `ui` being off the allow-list) still contributes
its whole content to the merged result of `loadLocalPatches`. -/
theorem loadLocalPatches_unvalidated_standalone_cex :
    (validatePatch c2UiTree).valid = false ∧
    (validatePatch c2WrappedUiPatch).valid = false ∧
    PATCHABLE_NAMESPACES.contains "ui" = false ∧
    loadLocalPatches (mkPatchStore "en" none (some (some c2UiTree))) "en"
      = some [("ui", JVal.vObj [("x", .vStr "hi")])] := by
  refine ⟨rfl, rfl, rfl, ?_⟩
  have h2 : univPatchLayers
      (storageGet (mkPatchStore "en" none (some (some c2UiTree)))
        universalPatchKey) "en" = [] := rfl
  have h3 : stdalonePatchLayers
      (storageGet (mkPatchStore "en" none (some (some c2UiTree)))
        (localPatchKey "en"))
      = [[("ui", JVal.vObj [("x", .vStr "hi")])]] := rfl
  simp only [loadLocalPatches, h2, h3]
  simp [deepMerge1, lookupKey, setKey]

/-- C2 as amended: in `loadLocalPatches`, the persisted universal document
is validated as a whole — on failure it contributes nothing at all (atomic
skip, shown both per-layer and on the full load) — and, when valid, its
`universal` and `languages[currentLanguage]` sections each reach the merge
sanitized and namespace-filtered; the standalone language-specific patch
reaches the merge sanitized and namespace-filtered but is not validated. -/
theorem loadLocalPatches_processing :
    (∀ u language, (validatePatch u).valid = false →
      univPatchLayers (some (some u)) language = []) ∧
    (∀ u language, (validatePatch u).valid = true →
      univPatchLayers (some (some u)) language =
        sanitizedLayer (getProp u "universal") ++
          sanitizedLayer (langSection u language)) ∧
    (∀ lp, stdalonePatchLayers (some (some lp)) =
      (match sanitizePatch lp with
       | some s => [filterProtectedNamespaces s]
       | none => [])) ∧
    (∀ u lp language, (validatePatch u).valid = false →
      loadLocalPatches (mkPatchStore language (some (some u)) lp) language
        = loadLocalPatches (mkPatchStore language none lp) language) := by
  have hA : ∀ u language, (validatePatch u).valid = false →
      univPatchLayers (some (some u)) language = [] := by
    intro u language h
    simp [univPatchLayers, h]
  refine ⟨hA, ?_, fun lp => rfl, ?_⟩
  · intro u language h
    simp [univPatchLayers, h]
  · intro u lp language h
    simp only [loadLocalPatches, storageGet_mkPatchStore_univ,
      storageGet_mkPatchStore_lang]
    rw [hA u language h]
    simp [univPatchLayers]

/-- Witness for the amended C2 at concrete inputs. -/
theorem loadLocalPatches_processing_witness :
    (validatePatch c2UiTree).valid = false ∧
    univPatchLayers (some (some c2UiTree)) "en" = [] ∧
    (validatePatch c2ValidDoc).valid = true ∧
    univPatchLayers (some (some c2ValidDoc)) "en"
      = sanitizedLayer (getProp c2ValidDoc "universal") ++
          sanitizedLayer (langSection c2ValidDoc "en") ∧
    loadLocalPatches (mkPatchStore "fr" (some (some c2UiTree)) none) "fr"
      = loadLocalPatches (mkPatchStore "fr" none none) "fr" :=
  ⟨rfl, loadLocalPatches_processing.1 c2UiTree "en" rfl,
   rfl, loadLocalPatches_processing.2.1 c2ValidDoc "en" rfl,
   loadLocalPatches_processing.2.2.2 c2UiTree none "fr" rfl⟩

/-- Counterexample to C3 as stated: a successful `applyUniversalPatch`
returns the interpolation cache exactly as it received it — here a
non-empty cache — so the cache is not empty after the call. -/
theorem apply_patch_keeps_cache_cex :
    (validatePatch c3ValidPatch).valid = true ∧
    (applyUniversalPatch c3ValidPatch [] [("k", "v")]).2.2 = [("k", "v")] ∧
    ¬ (applyUniversalPatch c3ValidPatch [] [("k", "v")]).2.2 = [] := by
  refine ⟨rfl, rfl, ?_⟩
  intro h
  rw [show (applyUniversalPatch c3ValidPatch [] [("k", "v")]).2.2
      = [("k", "v")] from rfl] at h
  exact List.noConfusion h

/-- C3 as amended: the interpolation cache is empty after every
`loadTranslations` call and after every `clearPatches` call, while
`applyUniversalPatch` and `applyLanguagePatch` leave it exactly as it was
on every path (validation failure, sanitization failure, or success). -/
theorem loader_cache_clearing :
    (∀ bundles language remoteBaseUrl cacheDuration now fetched store icache,
      (loadTranslations bundles language remoteBaseUrl cacheDuration now
        fetched store icache).2.2 = []) ∧
    (∀ language store icache, (clearPatches language store icache).2 = []) ∧
    (∀ patch store icache,
      (applyUniversalPatch patch store icache).2.2 = icache) ∧
    (∀ language patch store icache,
      (applyLanguagePatch language patch store icache).2.2 = icache) := by
  refine ⟨fun _ _ _ _ _ _ _ _ => rfl, fun _ _ _ => rfl, ?_, ?_⟩
  · intro patch store icache
    simp only [applyUniversalPatch]
    split
    · rfl
    · rfl
  · intro language patch store icache
    simp only [applyLanguagePatch]
    split
    · rfl
    · split <;> rfl

end MFCS
